import Mathlib

/-!
# Verification of the caption-timing / text-to-screen segmentation core

Shallow embedding of the caption segmenter and timeline builder of
`src/main.py` (`create_trivia_video`, lines 866-1159).  Text is modelled as
`List Char` (a Python `str`), words as `List Char`, a wrapped line as a
`List` of words, and a page as a `List` of lines.  Seconds are modelled as
rationals (`ℚ`): the Python code computes with IEEE floats, which we idealise
as exact rational arithmetic; every tolerance constant (0.05, 0.03, 0.01,
0.001) is carried over literally.
-/

namespace Trivia

/-! ## Text preprocessing (src/main.py line 867)

`fact_text = fact_text.replace("*", "").strip()` -/

/-- Python `str.replace("*", "")`: drop every asterisk. -/
def removeStars (s : List Char) : List Char :=
  s.filter (fun c => c ≠ '*')

/-- Python `str.strip()`: drop leading and trailing whitespace. -/
def stripWS (s : List Char) : List Char :=
  ((s.dropWhile Char.isWhitespace).reverse.dropWhile Char.isWhitespace).reverse

/-- The narration text actually spoken and displayed: the input fact text
after `replace("*", "").strip()` (src/main.py line 867).  This same string is
sent to the speech synthesiser (line 967), so it is the narrated text. -/
def prepFact (s : List Char) : List Char :=
  stripWS (removeStars s)

/-! ## Word splitting (src/main.py line 949)

`words = fact_text.split()` — Python `str.split()` with no argument splits on
runs of whitespace and never yields empty words. -/

/-- Auxiliary splitter: `cur` is the current word being accumulated,
in reverse order. -/
def splitWordsAux (cur : List Char) : List Char → List (List Char)
  | [] => if cur = [] then [] else [cur.reverse]
  | c :: cs =>
    if c.isWhitespace then
      if cur = [] then splitWordsAux [] cs
      else cur.reverse :: splitWordsAux [] cs
    else splitWordsAux (c :: cur) cs

/-- Python `str.split()`: whitespace-delimited words, no empties. -/
def splitWords (s : List Char) : List (List Char) :=
  splitWordsAux [] s

/-! ## Greedy word wrap (src/main.py lines 950-961)

```python
lines = []
current_line = []
for word in words:
    test_line = " ".join(current_line + [word])
    bbox = draw.textbbox((0, 0), test_line, font=font)
    if bbox[2] - bbox[0] <= max_width:
        current_line.append(word)
    else:
        lines.append(" ".join(current_line))
        current_line = [word]
if current_line:
    lines.append(" ".join(current_line))
```

A line is kept as its list of words (the `" ".join` is a rendering detail);
the pixel measurement of a candidate line is an abstract
`meas : List (List Char) → ℚ` capability, standing for
`draw.textbbox` applied to the joined words. -/

/-- One pass of the greedy wrap loop: `cur` is `current_line`; the flush of a
non-empty `current_line` after the loop is the base case.  Note that when the
very first word already exceeds `maxW`, the source appends the join of the
empty `current_line`, i.e. an empty line — this is reproduced faithfully. -/
def wrapAux (meas : List (List Char) → ℚ) (maxW : ℚ) (cur : List (List Char)) :
    List (List Char) → List (List (List Char))
  | [] => if cur = [] then [] else [cur]
  | w :: ws =>
    if meas (cur ++ [w]) ≤ maxW then wrapAux meas maxW (cur ++ [w]) ws
    else cur :: wrapAux meas maxW [w] ws

/-- Greedy word-wrap of a word list into lines (lists of words). -/
def wrapWords (meas : List (List Char) → ℚ) (maxW : ℚ)
    (words : List (List Char)) : List (List (List Char)) :=
  wrapAux meas maxW [] words

/-! ## Page grouping (src/main.py line 963)

`pages = ["\n".join(lines[i:i + 2]) for i in range(0, len(lines), 2)]` -/

/-- Group consecutive wrapped lines into pages of two lines each; the final
page may have a single line. -/
def chunkPages : List (List (List Char)) → List (List (List (List Char)))
  | [] => []
  | [l] => [[l]]
  | l₁ :: l₂ :: rest => [l₁, l₂] :: chunkPages rest

/-- The full page splitter of src/main.py lines 867 and 949-963: preprocess
the fact text, split into words, wrap greedily, group into two-line pages. -/
def makePages (meas : List (List Char) → ℚ) (maxW : ℚ) (s : List Char) :
    List (List (List (List Char))) :=
  chunkPages (wrapWords meas maxW (splitWords (prepFact s)))

/-- The whitespace-delimited words displayed on a page, in order. -/
def pageWords (p : List (List (List Char))) : List (List Char) :=
  p.flatten

/-! ## Round-trip lemmas -/

theorem wrapAux_flatten (meas : List (List Char) → ℚ) (maxW : ℚ)
    (cur words : List (List Char)) :
    (wrapAux meas maxW cur words).flatten = cur ++ words := by
  induction words generalizing cur with
  | nil =>
    by_cases h : cur = [] <;> simp [wrapAux, h]
  | cons w ws ih =>
    by_cases h : meas (cur ++ [w]) ≤ maxW <;>
      simp [wrapAux, h, ih]

theorem chunkPages_flatten (ls : List (List (List Char))) :
    (chunkPages ls).flatten = ls := by
  induction ls using chunkPages.induct with
  | case1 => simp [chunkPages]
  | case2 l => simp [chunkPages]
  | case3 l₁ l₂ rest ih => simp [chunkPages, ih]

/-- A concrete width capability used to instantiate theorems: the total
character count of the words on a line (a crude but monotone pixel model). -/
def lenMeas (l : List (List Char)) : ℚ :=
  ((l.map List.length).sum : ℕ)

theorem lenMeas_mono {l₁ l₂ : List (List Char)} (h : l₁.Sublist l₂) :
    lenMeas l₁ ≤ lenMeas l₂ := by
  unfold lenMeas
  exact_mod_cast List.Sublist.sum_le_sum (h.map _) (fun a _ => Nat.zero_le a)

/-- The invariant maintained by the greedy wrap loop: a closed line either
fits, or is a single word; and an over-wide word can only occur alone. -/
def lineOk (meas : List (List Char) → ℚ) (maxW : ℚ) (line : List (List Char)) : Prop :=
  (meas line ≤ maxW ∨ ∃ w, line = [w]) ∧
    (∀ w ∈ line, maxW < meas [w] → line = [w])

theorem wrapAux_lineOk (meas : List (List Char) → ℚ) (maxW : ℚ)
    (hmono : ∀ l₁ l₂ : List (List Char), l₁.Sublist l₂ → meas l₁ ≤ meas l₂)
    (cur words : List (List Char)) (hcur : lineOk meas maxW cur) :
    ∀ line ∈ wrapAux meas maxW cur words, lineOk meas maxW line := by
  induction words generalizing cur with
  | nil =>
    intro line hline
    by_cases h : cur = [] <;> simp [wrapAux, h] at hline
    · exact hline ▸ hcur
  | cons w ws ih =>
    intro line hline
    by_cases h : meas (cur ++ [w]) ≤ maxW
    · refine ih (cur ++ [w]) ?_ line (by simpa [wrapAux, h] using hline)
      constructor
      · exact Or.inl h
      · intro u hu hwide
        exact absurd (le_trans (hmono [u] _ (List.singleton_sublist.2 hu)) h)
          (not_le.2 hwide)
    · simp [wrapAux, h] at hline
      rcases hline with rfl | hline
      · exact hcur
      · refine ih [w] ?_ line hline
        exact ⟨Or.inr ⟨w, rfl⟩, fun u hu _ => by
          rcases List.mem_singleton.1 hu with rfl; rfl⟩

end Trivia

namespace Trivia

/-- C3.  Text fidelity round-trip: the whitespace-delimited words of all
produced pages, concatenated in page order (line breaks between wrapped lines
contribute no words), are exactly the words of the narrated text — the fact
text after the `replace("*", "").strip()` preprocessing of src/main.py line
867, which is precisely the string sent to speech synthesis.  No word is
dropped, none duplicated, and the left-to-right order is preserved. -/
theorem pages_roundtrip (meas : List (List Char) → ℚ) (maxW : ℚ) (s : List Char) :
    ((makePages meas maxW s).map pageWords).flatten = splitWords (prepFact s) := by
  unfold makePages pageWords wrapWords
  have h1 : ((chunkPages (wrapAux meas maxW [] (splitWords (prepFact s)))).map
      List.flatten).flatten
      = (chunkPages (wrapAux meas maxW [] (splitWords (prepFact s)))).flatten.flatten := by
    generalize chunkPages (wrapAux meas maxW [] (splitWords (prepFact s))) = L
    induction L with
    | nil => rfl
    | cons p ps ihp => simp [ihp]
  rw [h1, chunkPages_flatten]
  simpa using wrapAux_flatten meas maxW [] (splitWords (prepFact s))

/-- C4.  Width bound for the greedy wrap (src/main.py lines 950-961), for any
monotone width measure (a sublist of a line never measures wider — true of
any pixel-width function): every produced line either fits within
`maxW`, or consists of a single word; and a word wider than `maxW` only ever
appears alone on its own line, never sharing it with another word (it is
still emitted, so it is not dropped — see the round-trip theorem's claim for
word preservation). -/
theorem wrap_width_bound (meas : List (List Char) → ℚ) (maxW : ℚ)
    (hmono : ∀ l₁ l₂ : List (List Char), l₁.Sublist l₂ → meas l₁ ≤ meas l₂)
    (hnil : meas [] ≤ maxW) (words : List (List Char)) :
    ∀ line ∈ wrapWords meas maxW words,
      (meas line ≤ maxW ∨ ∃ w, line = [w]) ∧
        (∀ w ∈ line, maxW < meas [w] → line = [w]) :=
  wrapAux_lineOk meas maxW hmono [] words ⟨Or.inl hnil, by simp⟩

/-- Witness for C4 at a concrete instance: measure = total character count,
`maxW = 3`, words "ab cd e wide!" (the word `wide!` is over-wide and lands
alone). -/
theorem wrap_width_bound_witness :
    (lenMeas [['w','i','d','e','!']] ≤ 3 ∨ ∃ w, [['w','i','d','e','!']] = [w]) ∧
      (∀ w ∈ [['w','i','d','e','!']], (3:ℚ) < lenMeas [w] →
        [['w','i','d','e','!']] = [w]) :=
  wrap_width_bound lenMeas 3 (fun _ _ h => lenMeas_mono h) (by decide)
    [['a','b'], ['c','d'], ['e'], ['w','i','d','e','!']]
    [['w','i','d','e','!']] (by decide)

/-- C5 counterexample: for the empty narration text the splitter of
src/main.py lines 949-963 produces the empty page list — zero pages, not the
single page the claim requires (`words = "".split()` is `[]`, the wrap loop
never runs, `current_line` stays empty so nothing is flushed, and the page
comprehension over zero lines is empty). -/
theorem empty_input_pages_cex :
    makePages lenMeas 100 [] = [] ∧ (makePages lenMeas 100 []).length ≠ 1 := by
  constructor <;> decide

/-- C5 amended: empty or whitespace-only narration text (more generally, any
text with no whitespace-delimited words) yields zero pages — an empty page
list, hence an empty timeline — rather than one page carrying the input. -/
theorem empty_input_zero_pages (meas : List (List Char) → ℚ) (maxW : ℚ)
    (s : List Char) (h : splitWords (prepFact s) = []) :
    makePages meas maxW s = [] := by
  unfold makePages wrapWords
  rw [h]
  simp [wrapAux, chunkPages]

/-- Witness for the amended C5 at the whitespace-only narration `" "`. -/
theorem empty_input_zero_pages_witness :
    makePages lenMeas 100 [' '] = [] :=
  empty_input_zero_pages lenMeas 100 [' '] (by decide)

end Trivia

namespace Trivia

/-! ## Per-page timings from the aligner output (src/main.py lines 992-1005)

```python
per_page_durations = []
aeneas_starts = []
for i in range(len(pages)):
    if i < len(segments):
        start = float(segments[i].get("begin", 0))
        end = float(segments[i].get("end", 0))
        dur = max(0.05, end - start)
        per_page_durations.append(dur)
        aeneas_starts.append(start)
    else:
        per_page_durations.append(1.0)
        aeneas_starts.append(sum(per_page_durations[:-1]))
```
A segment is its `(begin, end)` pair; the loop is recursion on the page count
with the segments consumed in step and `acc` the running sum of the durations
appended so far (what `sum(per_page_durations[:-1])` reads after the append).
-/

/-- The 0.05 s duration floor used throughout src/main.py. -/
def floorDur : ℚ := 1 / 20

/-- One `(duration, authoritativeStart)` pair per page. -/
def derivePT : List (ℚ × ℚ) → ℕ → ℚ → List (ℚ × ℚ)
  | _, 0, _ => []
  | [], n + 1, acc => (1, acc) :: derivePT [] n (acc + 1)
  | (b, e) :: rest, n + 1, acc =>
    (max floorDur (e - b), b) :: derivePT rest n (acc + max floorDur (e - b))

/-- Per-page `(duration, authoritativeStart)` for `n` pages from the aligner
segments. -/
def pageTimings (segs : List (ℚ × ℚ)) (n : ℕ) : List (ℚ × ℚ) :=
  derivePT segs n 0

/-! ## Scheduled video starts (src/main.py lines 1014-1019)

```python
video_starts = []
acc = 0.0
for d in per_page_durations:
    video_starts.append(acc)
    acc += d
```
-/

def videoStartsAux (acc : ℚ) : List ℚ → List ℚ
  | [] => []
  | d :: ds => acc :: videoStartsAux (acc + d) ds

/-- `video_starts[i]` = sum of the durations of pages before `i`. -/
def videoStarts (ds : List ℚ) : List ℚ :=
  videoStartsAux 0 ds

/-! ## Forward correction pass (src/main.py lines 1021-1033)

```python
for i in range(1, len(pages)):
    delta = aeneas_starts[i] - video_starts[i]
    if delta > 0.03:
        per_page_durations[i - 1] = max(0.05, per_page_durations[i - 1] + delta)
        video_starts = []            # recomputed from the new durations
        acc = 0.0
        for d in per_page_durations:
            video_starts.append(acc)
            acc += d
```
The state is the pair `(video_starts, per_page_durations)`; when no
adjustment fires the cached starts are kept unchanged, exactly as in the
source.
-/

def corrStep (aeneas : List ℚ) (sd : List ℚ × List ℚ) (i : ℕ) : List ℚ × List ℚ :=
  let delta := aeneas.getD i 0 - sd.1.getD i 0
  if 3 / 100 < delta then
    let ds := sd.2.set (i - 1) (max floorDur (sd.2.getD (i - 1) 0 + delta))
    (videoStarts ds, ds)
  else sd

/-- The whole correction pass: fold the step over `i = 1 .. len(pages)-1`,
starting from the initial scheduled starts. -/
def correctionPass (ds aeneas : List ℚ) : List ℚ × List ℚ :=
  (List.range' 1 (ds.length - 1)).foldl (corrStep aeneas) (videoStarts ds, ds)

/-- The per-page durations after the forward correction pass. -/
def correctedDurations (ds aeneas : List ℚ) : List ℚ :=
  (correctionPass ds aeneas).2

/-! ## Final duration adjustment (src/main.py lines 1035-1053)

```python
total_video_len = sum(per_page_durations)
if total_video_len < audio_duration:
    per_page_durations[-1] += (audio_duration - total_video_len)
elif total_video_len > audio_duration + 0.001 and len(per_page_durations) > 1:
    excess = total_video_len - audio_duration
    adjustable_indices = list(range(len(per_page_durations) - 1))
    adj_total = sum(per_page_durations[i] - 0.05 for i in adjustable_indices
                    if per_page_durations[i] > 0.05)
    if adj_total > 0:
        for i in adjustable_indices:
            if per_page_durations[i] > 0.05:
                take = (per_page_durations[i] - 0.05) / adj_total * excess
                per_page_durations[i] = max(0.05, per_page_durations[i] - take)
        total_video_len = sum(per_page_durations)
        if total_video_len > audio_duration:
            per_page_durations[-1] = max(0.05,
                per_page_durations[-1] - (total_video_len - audio_duration))
```
-/

/-- Python `ds[-1] = v` (the source always applies it to a non-empty list). -/
def setLast (ds : List ℚ) (v : ℚ) : List ℚ :=
  ds.set (ds.length - 1) v

/-- Python `ds[-1]` read. -/
def lastD (ds : List ℚ) : ℚ :=
  ds.getD (ds.length - 1) 0

/-- The proportional trim of the overshoot branch: each non-final page with
slack above the floor gives up `slack / adj_total * excess`, clamped at the
floor; `take` is computed from the page's own (untouched) duration, so the
in-place Python loop is a position-indexed map. -/
def trimAux (adjT excess : ℚ) (lastIdx : ℕ) : ℕ → List ℚ → List ℚ
  | _, [] => []
  | i, d :: ds =>
    (if i < lastIdx ∧ floorDur < d then
        max floorDur (d - (d - floorDur) / adjT * excess)
      else d) :: trimAux adjT excess lastIdx (i + 1) ds

def finalAdjust (audio : ℚ) (ds : List ℚ) : List ℚ :=
  let total := ds.sum
  if total < audio then setLast ds (lastD ds + (audio - total))
  else if audio + 1 / 1000 < total ∧ 1 < ds.length then
    let excess := total - audio
    let adjT := (((ds.take (ds.length - 1)).filter (fun d => floorDur < d)).map
        (fun d => d - floorDur)).sum
    if 0 < adjT then
      let ds2 := trimAux adjT excess (ds.length - 1) 0 ds
      if audio < ds2.sum then setLast ds2 (max floorDur (lastD ds2 - (ds2.sum - audio)))
      else ds2
    else ds
  else ds

/-! ## Final safety pass (src/main.py lines 1154-1159)

```python
total_video_len = sum(c.duration for c in clips)
if total_video_len < audio_duration - 1e-3 and len(clips) > 0:
    extra = audio_duration - total_video_len
    clips[-1] = clips[-1].set_duration(clips[-1].duration + extra)
```
-/

def finalSafety (audio : ℚ) (ds : List ℚ) : List ℚ :=
  if ds.sum < audio - 1 / 1000 ∧ 0 < ds.length then
    setLast ds (lastD ds + (audio - ds.sum))
  else ds

/-- The complete duration pipeline for `n` pages: aligner timings, forward
correction pass, final adjustment, final safety pass. -/
def pipelineDurations (audio : ℚ) (segs : List (ℚ × ℚ)) (n : ℕ) : List ℚ :=
  let pt := pageTimings segs n
  finalSafety audio
    (finalAdjust audio (correctedDurations (pt.map Prod.fst) (pt.map Prod.snd)))

/-- The word-count-proportional (nominal) page start of spec §4.2, used only
to compare the code's fallback against the specified one.  Modelled from the
spec: `start_i = audioDuration * (sum(w_0..w_{i-1}) / totalWords)`. -/
def nominalStart (ws : List ℕ) (audio : ℚ) (i : ℕ) : ℚ :=
  audio * (((ws.take i).sum : ℕ) : ℚ) / ((ws.sum : ℕ) : ℚ)

/-- The nominal page duration of spec §4.2.  Modelled from the spec:
`duration_i = start_{i+1} - start_i`, the last page reaching exactly
`audioDuration`. -/
def nominalDuration (ws : List ℕ) (audio : ℚ) (i : ℕ) : ℚ :=
  if i + 1 < ws.length then nominalStart ws audio (i + 1) - nominalStart ws audio i
  else audio - nominalStart ws audio i

end Trivia

namespace Trivia

attribute [local semireducible] Rat.add Rat.sub Rat.mul Rat.inv

/-! ## Structural helper lemmas -/

theorem length_videoStartsAux (acc : ℚ) (ds : List ℚ) :
    (videoStartsAux acc ds).length = ds.length := by
  induction ds generalizing acc with
  | nil => rfl
  | cons d t ih => simp [videoStartsAux, ih]

theorem length_videoStarts (ds : List ℚ) :
    (videoStarts ds).length = ds.length :=
  length_videoStartsAux 0 ds

theorem videoStartsAux_getD (acc : ℚ) (ds : List ℚ) (i : ℕ) (h : i < ds.length) :
    (videoStartsAux acc ds).getD i 0 = acc + (ds.take i).sum := by
  induction ds generalizing acc i with
  | nil => simp at h
  | cons d t ih =>
    cases i with
    | zero => simp [videoStartsAux]
    | succ k =>
      have hk : k < t.length := by simpa using h
      simp only [videoStartsAux, List.getD_cons_succ, List.take_succ_cons,
        List.sum_cons, ih (acc + d) k hk]
      ring

theorem videoStarts_getD (ds : List ℚ) (i : ℕ) (h : i < ds.length) :
    (videoStarts ds).getD i 0 = (ds.take i).sum := by
  simpa using videoStartsAux_getD 0 ds i h

theorem foldl_preserve {α β : Type} {P : α → Prop} {f : α → β → α}
    (hf : ∀ a b, P a → P (f a b)) :
    ∀ (l : List β) (a : α), P a → P (l.foldl f a)
  | [], _, ha => ha
  | b :: l, a, ha => foldl_preserve hf l (f a b) (hf a b ha)

theorem length_derivePT (segs : List (ℚ × ℚ)) (n : ℕ) (acc : ℚ) :
    (derivePT segs n acc).length = n := by
  induction n generalizing segs acc with
  | zero => cases segs <;> rfl
  | succ k ih =>
    cases segs with
    | nil => simp [derivePT, ih]
    | cons s rest =>
      obtain ⟨b, e⟩ := s
      simp [derivePT, ih]

theorem length_pageTimings (segs : List (ℚ × ℚ)) (n : ℕ) :
    (pageTimings segs n).length = n :=
  length_derivePT segs n 0

theorem length_corrStep (aeneas : List ℚ) (sd : List ℚ × List ℚ) (i : ℕ) :
    (corrStep aeneas sd i).2.length = sd.2.length := by
  simp only [corrStep]
  split
  · simp
  · rfl

theorem length_correctedDurations (ds aeneas : List ℚ) :
    (correctedDurations ds aeneas).length = ds.length := by
  unfold correctedDurations correctionPass
  have h := foldl_preserve (P := fun sd : List ℚ × List ℚ => sd.2.length = ds.length)
    (fun sd i hsd => (length_corrStep aeneas sd i).trans hsd)
    (List.range' 1 (ds.length - 1)) (videoStarts ds, ds) rfl
  exact h

theorem length_setLast (ds : List ℚ) (v : ℚ) :
    (setLast ds v).length = ds.length := by
  simp [setLast]

theorem length_trimAux (adjT excess : ℚ) (lastIdx : ℕ) :
    ∀ (i : ℕ) (ds : List ℚ), (trimAux adjT excess lastIdx i ds).length = ds.length
  | _, [] => rfl
  | i, d :: ds => by simp [trimAux, length_trimAux adjT excess lastIdx (i + 1) ds]

theorem length_finalAdjust (audio : ℚ) (ds : List ℚ) :
    (finalAdjust audio ds).length = ds.length := by
  simp only [finalAdjust]
  split
  · exact length_setLast ds _
  · split
    · split
      · split
        · rw [length_setLast, length_trimAux]
        · rw [length_trimAux]
      · rfl
    · rfl

theorem length_finalSafety (audio : ℚ) (ds : List ℚ) :
    (finalSafety audio ds).length = ds.length := by
  simp only [finalSafety]
  split
  · exact length_setLast ds _
  · rfl

theorem length_pipelineDurations (audio : ℚ) (segs : List (ℚ × ℚ)) (n : ℕ) :
    (pipelineDurations audio segs n).length = n := by
  unfold pipelineDurations
  rw [length_finalSafety, length_finalAdjust, length_correctedDurations,
    List.length_map, length_pageTimings]

theorem lastD_mem {ds : List ℚ} (h : ds ≠ []) : lastD ds ∈ ds := by
  unfold lastD
  rw [List.getD_eq_getElem?_getD, List.getElem?_eq_getElem (by
    have := List.length_pos.2 h
    omega)]
  exact List.getElem_mem _

theorem sum_setLast_add (x : ℚ) : ∀ (ds : List ℚ), ds ≠ [] →
    (setLast ds (lastD ds + x)).sum = ds.sum + x
  | [], h => absurd rfl h
  | [a], _ => by
    simp [setLast, lastD]
  | a :: b :: t, _ => by
    have ih := sum_setLast_add x (b :: t) (by simp)
    simp only [setLast, lastD, List.length_cons, Nat.add_sub_cancel] at ih ⊢
    have hstep : (a :: b :: t).set (t.length + 1) ((b :: t).getD t.length 0 + x)
        = a :: (b :: t).set t.length ((b :: t).getD t.length 0 + x) := rfl
    rw [List.getD_cons_succ, hstep, List.sum_cons, ih]
    simp [List.sum_cons]
    ring

/-! ## Branch lemmas for the final adjustment and safety passes -/

theorem finalAdjust_short {audio : ℚ} {ds : List ℚ} (h : ds.sum < audio) :
    finalAdjust audio ds = setLast ds (lastD ds + (audio - ds.sum)) := by
  simp only [finalAdjust]
  rw [if_pos h]

theorem finalAdjust_of_sum_eq {audio : ℚ} {ds : List ℚ} (h : ds.sum = audio) :
    finalAdjust audio ds = ds := by
  simp only [finalAdjust]
  rw [if_neg (by rw [h]; exact lt_irrefl _), if_neg ?_]
  rintro ⟨h1, _⟩
  rw [h] at h1
  linarith

theorem finalSafety_noop {audio : ℚ} {ds : List ℚ} (h : audio - 1 / 1000 ≤ ds.sum) :
    finalSafety audio ds = ds := by
  simp only [finalSafety]
  rw [if_neg]
  rintro ⟨h1, _⟩
  linarith

/-! ## C1: coverage -/

/-- C1 counterexample: a single page whose aligner segment is longer than the
audio.  With one page the overshoot branch of the final adjustment
(src/main.py line 1039 requires `len(per_page_durations) > 1`) does nothing,
and the final safety pass only ever lengthens, so for `audioDuration = 2` and
one segment `(0, 5)` the pipeline returns `[5]`: the page durations sum to 5,
exceeding the audio duration by 3 s — far beyond the claimed ±0.01 s. -/
theorem coverage_cex :
    pipelineDurations 2 [(0, 5)] 1 = [5] ∧
      (2 : ℚ) + 1 / 100 < (pipelineDurations 2 [(0, 5)] 1).sum := by
  decide

/-- C1 amended: whenever the durations produced by the correction pass do not
already overshoot `audioDuration` (the shortfall side of the claim), the
final-adjustment pass makes the page durations sum to `audioDuration`
exactly.  (When they overshoot, the excess may persist: see the
counterexample.) -/
theorem coverage_amended (audio : ℚ) (segs : List (ℚ × ℚ)) (n : ℕ) (hn : 0 < n)
    (hle : (correctedDurations ((pageTimings segs n).map Prod.fst)
        ((pageTimings segs n).map Prod.snd)).sum ≤ audio) :
    (pipelineDurations audio segs n).sum = audio := by
  set ds := correctedDurations ((pageTimings segs n).map Prod.fst)
      ((pageTimings segs n).map Prod.snd) with hds
  have hlen : ds.length = n := by
    rw [hds, length_correctedDurations, List.length_map, length_pageTimings]
  have hne : ds ≠ [] := by
    intro h
    rw [h] at hlen
    simp at hlen
    omega
  have hpipe : pipelineDurations audio segs n = finalSafety audio (finalAdjust audio ds) := rfl
  rcases lt_or_eq_of_le hle with hlt | heq
  · rw [hpipe, finalAdjust_short hlt]
    have hsum : (setLast ds (lastD ds + (audio - ds.sum))).sum = audio := by
      rw [sum_setLast_add _ ds hne]
      ring
    rw [finalSafety_noop (by rw [hsum]; linarith), hsum]
  · rw [hpipe, finalAdjust_of_sum_eq heq, finalSafety_noop (by rw [heq]; linarith), heq]

/-- Witness for the amended C1 at one page, segment `(0, 1)`, audio 2 s. -/
theorem coverage_amended_witness :
    0 < 1 ∧
      (correctedDurations ((pageTimings [(0, 1)] 1).map Prod.fst)
        ((pageTimings [(0, 1)] 1).map Prod.snd)).sum ≤ 2 ∧
      (pipelineDurations 2 [(0, 1)] 1).sum = 2 :=
  ⟨by decide, by decide, coverage_amended 2 [(0, 1)] 1 (by decide) (by decide)⟩

/-! ## Indexed list helper lemmas -/

theorem take_set_of_le (v : ℚ) : ∀ (l : List ℚ) (p i : ℕ), i ≤ p →
    (l.set p v).take i = l.take i
  | [], _, _, _ => rfl
  | _ :: _, _, 0, _ => rfl
  | a :: t, p + 1, i + 1, h => by
    have hstep : (a :: t).set (p + 1) v = a :: t.set p v := rfl
    rw [hstep, List.take_succ_cons, List.take_succ_cons,
      take_set_of_le v t p i (by omega)]

theorem sum_take_succ : ∀ (l : List ℚ) (j : ℕ), j < l.length →
    (l.take (j + 1)).sum = (l.take j).sum + l.getD j 0
  | [], j, h => by simp at h
  | a :: t, 0, _ => by simp
  | a :: t, j + 1, h => by
    rw [List.take_succ_cons, List.take_succ_cons, List.sum_cons, List.sum_cons,
      List.getD_cons_succ, sum_take_succ t j (by simpa using h)]
    ring

theorem getD_set_self (v : ℚ) : ∀ (l : List ℚ) (p : ℕ), p < l.length →
    (l.set p v).getD p 0 = v
  | [], p, h => by simp at h
  | a :: t, 0, _ => rfl
  | a :: t, p + 1, h => by
    have hstep : (a :: t).set (p + 1) v = a :: t.set p v := rfl
    rw [hstep, List.getD_cons_succ, getD_set_self v t p (by simpa using h)]

theorem getD_set_ne (v : ℚ) : ∀ (l : List ℚ) (p q : ℕ), p ≠ q →
    (l.set p v).getD q 0 = l.getD q 0
  | [], _, _, _ => rfl
  | a :: t, 0, 0, h => absurd rfl h
  | a :: t, 0, q + 1, _ => rfl
  | a :: t, p + 1, 0, _ => rfl
  | a :: t, p + 1, q + 1, h => by
    have hstep : (a :: t).set (p + 1) v = a :: t.set p v := rfl
    rw [hstep, List.getD_cons_succ, List.getD_cons_succ,
      getD_set_ne v t p q (by omega)]

/-! ## Correction pass: invariants -/

theorem corrStep_sync (as : List ℚ) (sd : List ℚ × List ℚ) (i : ℕ)
    (h : sd.1 = videoStarts sd.2) :
    (corrStep as sd i).1 = videoStarts (corrStep as sd i).2 := by
  simp only [corrStep]
  split
  · rfl
  · exact h

/-- After the step for page `i` (given the cached starts are in sync), the
scheduled start of page `i` is within the 0.03 s tolerance of its
authoritative start: either it already was, or the predecessor was extended
by exactly the missing `delta` (the `max` with the floor can only extend
further). -/
theorem corrStep_achieves (as : List ℚ) (sd : List ℚ × List ℚ) (i : ℕ)
    (hsync : sd.1 = videoStarts sd.2) (h1 : 1 ≤ i) (h2 : i < sd.2.length) :
    as.getD i 0 - 3 / 100 ≤ (videoStarts (corrStep as sd i).2).getD i 0 := by
  simp only [corrStep]
  split
  case isTrue hδ =>
    set d0 := sd.2.getD (i - 1) 0 with hd0
    set w := max floorDur (d0 + (as.getD i 0 - sd.1.getD i 0)) with hw
    have hi1 : i - 1 < sd.2.length := by omega
    have hii : i - 1 + 1 = i := by omega
    have hnew : (videoStarts (sd.2.set (i - 1) w)).getD i 0
        = (sd.2.take (i - 1)).sum + w := by
      have hstep := sum_take_succ (sd.2.set (i - 1) w) (i - 1) (by simpa using hi1)
      rw [hii] at hstep
      rw [videoStarts_getD _ i (by simpa using h2), hstep,
        take_set_of_le w sd.2 (i - 1) (i - 1) le_rfl,
        getD_set_self w sd.2 (i - 1) hi1]
    have hold : sd.1.getD i 0 = (sd.2.take (i - 1)).sum + d0 := by
      have hstep := sum_take_succ sd.2 (i - 1) (by omega)
      rw [hii] at hstep
      rw [hsync, videoStarts_getD _ i h2, hstep, hd0]
    have hwge : d0 + (as.getD i 0 - sd.1.getD i 0) ≤ w := le_max_right _ _
    rw [hnew]
    rw [hold] at hwge
    linarith
  case isFalse hδ =>
    push_neg at hδ
    rw [← hsync]
    linarith

/-- A step for a later page `j > i` never changes the scheduled start of page
`i`: the step only rewrites the duration of page `j - 1 ≥ i`, and start `i`
is the sum of the durations of pages before `i`. -/
theorem corrStep_preserves_starts (as : List ℚ) (sd : List ℚ × List ℚ)
    (j i : ℕ) (hij : i < j) :
    (videoStarts (corrStep as sd j).2).getD i 0 = (videoStarts sd.2).getD i 0 := by
  simp only [corrStep]
  split
  case isTrue hδ =>
    by_cases hi : i < sd.2.length
    · rw [videoStarts_getD _ i (by simpa using hi), videoStarts_getD _ i hi,
        take_set_of_le _ sd.2 (j - 1) i (by omega)]
    · rw [List.getD_eq_default, List.getD_eq_default] <;>
        simp [length_videoStarts] <;> omega
  case isFalse hδ => rfl

theorem foldl_preserves_starts (as : List ℚ) (i : ℕ) :
    ∀ (is : List ℕ) (sd : List ℚ × List ℚ), (∀ k ∈ is, i < k) →
      (videoStarts ((is.foldl (corrStep as) sd)).2).getD i 0
        = (videoStarts sd.2).getD i 0
  | [], _, _ => rfl
  | j :: rest, sd, hall => by
    rw [List.foldl_cons,
      foldl_preserves_starts as i rest (corrStep as sd j)
        (fun k hk => hall k (List.mem_cons_of_mem j hk)),
      corrStep_preserves_starts as sd j i (hall j (List.mem_cons_self j rest))]

/-- Folding the correction step over a strictly increasing list of valid page
indices makes every processed page start within the tolerance of its
authoritative start (the achievement at each index survives the later
steps, which only touch later positions). -/
theorem corr_fold_achieves (as : List ℚ) :
    ∀ (is : List ℕ) (sd : List ℚ × List ℚ),
      sd.1 = videoStarts sd.2 →
      (∀ k ∈ is, 1 ≤ k ∧ k < sd.2.length) →
      List.Pairwise (· < ·) is →
      ∀ k ∈ is, as.getD k 0 - 3 / 100 ≤
        (videoStarts ((is.foldl (corrStep as) sd)).2).getD k 0
  | [], _, _, _, _ => by simp
  | j :: rest, sd, hsync, hbound, hpw => by
    intro k hk
    rw [List.foldl_cons]
    have hpw' := List.pairwise_cons.1 hpw
    rcases List.mem_cons.1 hk with rfl | hkrest
    · rw [foldl_preserves_starts as k rest (corrStep as sd k) hpw'.1]
      exact corrStep_achieves as sd k hsync (hbound k (List.mem_cons_self k rest)).1
        (hbound k (List.mem_cons_self k rest)).2
    · refine corr_fold_achieves as rest (corrStep as sd j)
        (corrStep_sync as sd j hsync) ?_ hpw'.2 k hkrest
      intro m hm
      rw [length_corrStep]
      exact hbound m (List.mem_cons_of_mem j hm)

/-! ## C2: monotonic anchoring -/

/-- C2 counterexample: with aligner segments `(1,2)` and `(2,3)` (leading
narration silence of 1 s), the authoritative starts `[1, 2]` are strictly
increasing, yet after the correction pass the first page is still scheduled
at 0 — earlier than its authoritative start by a full second, far beyond the
0.03 s tolerance.  The pass starts at `i = 1` and never corrects page 0. -/
theorem anchoring_cex :
    List.Pairwise (· ≤ ·) ((pageTimings [(1, 2), (2, 3)] 2).map Prod.snd) ∧
      (videoStarts (correctedDurations
          ((pageTimings [(1, 2), (2, 3)] 2).map Prod.fst)
          ((pageTimings [(1, 2), (2, 3)] 2).map Prod.snd))).getD 0 0
        < ((pageTimings [(1, 2), (2, 3)] 2).map Prod.snd).getD 0 0 - 3 / 100 := by
  decide

/-- C2 amended: restricted to the pages the forward pass actually visits —
every page other than the first — the claim holds: after the correction pass
no such page's scheduled start is earlier than its authoritative start by
more than the 0.03 s tolerance.  (The first page is always scheduled at 0 and
is never corrected, so it can start arbitrarily early; see the
counterexample.) -/
theorem anchoring_amended (ds as : List ℚ) (_hmono : List.Pairwise (· ≤ ·) as)
    (i : ℕ) (h1 : 1 ≤ i) (h2 : i < ds.length) :
    as.getD i 0 - 3 / 100 ≤ (videoStarts (correctedDurations ds as)).getD i 0 := by
  have hmem : i ∈ List.range' 1 (ds.length - 1) := by
    rw [List.mem_range'_1]
    omega
  refine corr_fold_achieves as (List.range' 1 (ds.length - 1))
    (videoStarts ds, ds) rfl ?_ (List.pairwise_lt_range' 1 (ds.length - 1)) i hmem
  intro k hk
  rw [List.mem_range'_1] at hk
  dsimp only
  omega

/-- Witness for the amended C2: durations `[1, 1]`, authoritative starts
`[0, 1]` (monotone), page 1. -/
theorem anchoring_amended_witness :
    List.Pairwise (· ≤ ·) ([0, 1] : List ℚ) ∧ 1 ≤ 1 ∧ 1 < ([1, 1] : List ℚ).length ∧
      (([0, 1] : List ℚ).getD 1 0 - 3 / 100
        ≤ (videoStarts (correctedDurations [1, 1] [0, 1])).getD 1 0) :=
  ⟨by decide, le_rfl, by decide,
    anchoring_amended [1, 1] [0, 1] (by decide) 1 le_rfl (by decide)⟩

/-! ## C10: the correction pass is monotone -/

theorem corrStep_pointwise (as : List ℚ) (sd : List ℚ × List ℚ) (j q : ℕ) :
    sd.2.getD q 0 ≤ (corrStep as sd j).2.getD q 0 := by
  simp only [corrStep]
  split
  case isTrue hδ =>
    by_cases hq : j - 1 = q
    · subst hq
      by_cases hlen : j - 1 < sd.2.length
      · rw [getD_set_self _ sd.2 (j - 1) hlen]
        have := le_max_right floorDur (sd.2.getD (j - 1) 0 + (as.getD j 0 - sd.1.getD j 0))
        linarith
      · rw [List.set_eq_of_length_le (by omega)]
    · rw [getD_set_ne _ sd.2 (j - 1) q hq]
  case isFalse hδ => exact le_rfl

theorem fold_pointwise (as : List ℚ) :
    ∀ (is : List ℕ) (sd : List ℚ × List ℚ) (q : ℕ),
      sd.2.getD q 0 ≤ ((is.foldl (corrStep as) sd)).2.getD q 0
  | [], _, _ => le_rfl
  | j :: rest, sd, q => by
    rw [List.foldl_cons]
    exact le_trans (corrStep_pointwise as sd j q)
      (fold_pointwise as rest (corrStep as sd j) q)

theorem sum_take_le : ∀ (l l' : List ℚ), l.length = l'.length →
    (∀ q, l.getD q 0 ≤ l'.getD q 0) → ∀ (i : ℕ), (l.take i).sum ≤ (l'.take i).sum
  | [], [], _, _, _ => le_rfl
  | [], _ :: _, h, _, _ => by simp at h
  | _ :: _, [], h, _, _ => by simp at h
  | a :: t, a' :: t', hlen, hpt, 0 => le_rfl
  | a :: t, a' :: t', hlen, hpt, i + 1 => by
    rw [List.take_succ_cons, List.take_succ_cons, List.sum_cons, List.sum_cons]
    have h0 := hpt 0
    simp only [List.getD_cons_zero] at h0
    have ht := sum_take_le t t' (by simpa using hlen)
      (fun q => by simpa using hpt (q + 1)) i
    linarith

/-- C10.  The forward correction pass (src/main.py lines 1021-1033) is
monotone: every page's duration after the pass is at least its duration
before (the only mutation adds a positive `delta`, and the `max` with the
floor can only raise further), and consequently every page's recomputed
scheduled start is at least its pre-correction scheduled start — the
correction never makes any caption appear earlier than before. -/
theorem correction_monotone (ds as : List ℚ) (i : ℕ) :
    ds.getD i 0 ≤ (correctedDurations ds as).getD i 0 ∧
      (videoStarts ds).getD i 0 ≤ (videoStarts (correctedDurations ds as)).getD i 0 := by
  have hpt : ∀ q, ds.getD q 0 ≤ (correctedDurations ds as).getD q 0 := by
    intro q
    exact fold_pointwise as (List.range' 1 (ds.length - 1)) (videoStarts ds, ds) q
  refine ⟨hpt i, ?_⟩
  by_cases hi : i < ds.length
  · rw [videoStarts_getD _ i hi,
      videoStarts_getD _ i (by rw [length_correctedDurations]; exact hi)]
    exact sum_take_le ds (correctedDurations ds as)
      (length_correctedDurations ds as).symm hpt i
  · rw [List.getD_eq_default, List.getD_eq_default] <;>
      simp [length_videoStarts, length_correctedDurations] <;> omega

/-! ## C6: timing-mark count mismatch -/

theorem derivePT_fallback : ∀ (segs : List (ℚ × ℚ)) (n : ℕ) (acc : ℚ) (i : ℕ),
    segs.length ≤ i → i < n →
    (derivePT segs n acc).getD i (0, 0)
      = (1, acc + (((derivePT segs n acc).take i).map Prod.fst).sum) := by
  intro segs n
  induction n generalizing segs with
  | zero => omega
  | succ k ih =>
    intro acc i hsegs hin
    cases segs with
    | nil =>
      cases i with
      | zero => simp [derivePT]
      | succ j =>
        have h := ih [] (acc + 1) j (by simp) (by omega)
        simp only [derivePT, List.getD_cons_succ, List.take_succ_cons, List.map_cons,
          List.sum_cons, h]
        ring_nf
    | cons s rest =>
      obtain ⟨b, e⟩ := s
      cases i with
      | zero => simp at hsegs
      | succ j =>
        have h := ih rest (acc + max floorDur (e - b)) j (by simpa using hsegs) (by omega)
        simp only [derivePT, List.getD_cons_succ, List.take_succ_cons, List.map_cons,
          List.sum_cons, h]
        ring_nf

/-- C6 counterexample: two pages with word counts `[1, 3]`, `audioDuration`
4 s, and a single aligner segment `(0, 1)`.  The specified nominal
(word-count-proportional) duration of the markless page 1 is
`4 * 3/4 = 3` s, but the code (src/main.py lines 1002-1005) gives it the
fixed fallback duration 1.0 s — not the nominal estimate. -/
theorem fallback_not_nominal_cex :
    (pageTimings [(0, 1)] 2).getD 1 (0, 0) = (1, 1) ∧
      nominalDuration [1, 3] 4 1 = 3 ∧
      ((pageTimings [(0, 1)] 2).getD 1 (0, 0)).1 ≠ nominalDuration [1, 3] 4 1 := by
  decide

/-- C6 amended: when there are fewer timing marks than pages the request
still never fails — every one of the `n` pages receives a timing — but a
page lacking a mark falls back to a fixed duration of 1.0 s (not to the
word-count-proportional nominal estimate), with its authoritative start
recorded as the cumulative sum of all preceding pages' durations. -/
theorem fallback_amended (segs : List (ℚ × ℚ)) (n : ℕ) :
    (pageTimings segs n).length = n ∧
      ∀ i, segs.length ≤ i → i < n →
        (pageTimings segs n).getD i (0, 0)
          = (1, (((pageTimings segs n).take i).map Prod.fst).sum) := by
  refine ⟨length_pageTimings segs n, fun i hsegs hin => ?_⟩
  have h := derivePT_fallback segs n 0 i hsegs hin
  simpa [pageTimings] using h

/-- Witness for the amended C6: one mark, two pages, page 1 gets the fixed
fallback. -/
theorem fallback_amended_witness :
    (pageTimings [(0, 1)] 2).length = 2 ∧
      (pageTimings [(0, 1)] 2).getD 1 (0, 0)
        = (1, (((pageTimings [(0, 1)] 2).take 1).map Prod.fst).sum) :=
  ⟨(fallback_amended [(0, 1)] 2).1,
    (fallback_amended [(0, 1)] 2).2 1 (by decide) (by decide)⟩

/-! ## C7: the final adjustment's branches -/

theorem finalAdjust_noop {audio : ℚ} {ds : List ℚ} (h1 : ¬ ds.sum < audio)
    (h2 : ¬ (audio + 1 / 1000 < ds.sum ∧ 1 < ds.length)) :
    finalAdjust audio ds = ds := by
  simp only [finalAdjust]
  rw [if_neg h1, if_neg h2]

theorem finalAdjust_over {audio : ℚ} {ds : List ℚ} (h1 : ¬ ds.sum < audio)
    (hp : audio + 1 / 1000 < ds.sum) (hl : 1 < ds.length) :
    finalAdjust audio ds =
      (if 0 < (((ds.take (ds.length - 1)).filter (fun d => floorDur < d)).map
          (fun d => d - floorDur)).sum then
        if audio < (trimAux (((ds.take (ds.length - 1)).filter
            (fun d => floorDur < d)).map (fun d => d - floorDur)).sum
            (ds.sum - audio) (ds.length - 1) 0 ds).sum then
          setLast (trimAux (((ds.take (ds.length - 1)).filter
              (fun d => floorDur < d)).map (fun d => d - floorDur)).sum
              (ds.sum - audio) (ds.length - 1) 0 ds)
            (max floorDur (lastD (trimAux (((ds.take (ds.length - 1)).filter
              (fun d => floorDur < d)).map (fun d => d - floorDur)).sum
              (ds.sum - audio) (ds.length - 1) 0 ds)
              - ((trimAux (((ds.take (ds.length - 1)).filter
                (fun d => floorDur < d)).map (fun d => d - floorDur)).sum
                (ds.sum - audio) (ds.length - 1) 0 ds).sum - audio)))
        else trimAux (((ds.take (ds.length - 1)).filter
            (fun d => floorDur < d)).map (fun d => d - floorDur)).sum
            (ds.sum - audio) (ds.length - 1) 0 ds
      else ds) := by
  simp only [finalAdjust]
  rw [if_neg h1, if_pos ⟨hp, hl⟩]

theorem trimAux_getD_bounds (adjT excess : ℚ) (hadj : 0 < adjT) (hex : 0 < excess)
    (lastIdx : ℕ) : ∀ (i0 : ℕ) (ds : List ℚ) (k : ℕ),
    (trimAux adjT excess lastIdx i0 ds).getD k 0 ≤ ds.getD k 0 ∧
      min (ds.getD k 0) floorDur ≤ (trimAux adjT excess lastIdx i0 ds).getD k 0
  | _, [], k => by
    constructor <;> simp [trimAux, min_le_left]
  | i0, d :: t, 0 => by
    simp only [trimAux, List.getD_cons_zero]
    split
    case isTrue h =>
      have htake : 0 < (d - floorDur) / adjT * excess :=
        mul_pos (div_pos (by linarith [h.2]) hadj) hex
      constructor
      · exact max_le (le_of_lt h.2) (by linarith)
      · rw [min_eq_right (le_of_lt h.2)]
        exact le_max_left _ _
    case isFalse h =>
      exact ⟨le_rfl, min_le_left _ _⟩
  | i0, d :: t, k + 1 => by
    simp only [trimAux, List.getD_cons_succ]
    exact trimAux_getD_bounds adjT excess hadj hex lastIdx (i0 + 1) t k

theorem trimAux_getD_of_lastIdx_le (adjT excess : ℚ) (lastIdx : ℕ) :
    ∀ (i0 : ℕ) (ds : List ℚ) (k : ℕ), lastIdx ≤ i0 + k →
      (trimAux adjT excess lastIdx i0 ds).getD k 0 = ds.getD k 0
  | _, [], _, _ => by simp [trimAux]
  | i0, d :: t, 0, h => by
    simp only [trimAux, List.getD_cons_zero]
    rw [if_neg]
    rintro ⟨hlt, _⟩
    omega
  | i0, d :: t, k + 1, h => by
    simp only [trimAux, List.getD_cons_succ]
    exact trimAux_getD_of_lastIdx_le adjT excess lastIdx (i0 + 1) t k (by omega)

theorem getD_setLast_of_lt {ds : List ℚ} {v : ℚ} {i : ℕ} (h : i < ds.length - 1) :
    (setLast ds v).getD i 0 = ds.getD i 0 :=
  getD_set_ne v ds (ds.length - 1) i (by omega)

theorem lastD_setLast {ds : List ℚ} (hne : ds ≠ []) (v : ℚ) :
    lastD (setLast ds v) = v := by
  unfold lastD setLast
  rw [List.length_set]
  exact getD_set_self v ds (ds.length - 1)
    (by have := List.length_pos.2 hne; omega)

/-- C7 counterexample: a single page of duration 5 with `audioDuration = 2`.
The total overshoots the audio by 3 s, but the overshoot branch requires
more than one page (src/main.py line 1039), so nothing is removed and the
final page is *not* shrunk, contradicting the claim that when proportional
removal is impossible the final page is shrunk instead. -/
theorem final_adjust_cex :
    finalAdjust 2 [5] = [5] ∧ (2 : ℚ) + 1 / 100 < (finalAdjust 2 [5]).sum := by
  decide

/-- C7 amended: (a) if the total falls short of `audioDuration` the shortfall
is added to the final page, making the sum exactly `audioDuration`;
(b) if the total overshoots by more than 0.001 s *and* there are at least two
pages, every non-final page is only ever reduced (in proportion to its slack
above the floor) and never taken below the 0.05 s floor, and the final page
ends at or above the floor; (c) otherwise — an overshoot of at most 0.001 s,
or a single page — the durations are left unchanged (in particular a
one-page overshoot is never repaired). -/
theorem final_adjust_amended (audio : ℚ) (ds : List ℚ) (hne : ds ≠ []) :
    (ds.sum < audio →
      finalAdjust audio ds = setLast ds (lastD ds + (audio - ds.sum)) ∧
        (finalAdjust audio ds).sum = audio) ∧
    (audio + 1 / 1000 < ds.sum → 1 < ds.length →
      (∀ i, i < ds.length - 1 →
        (finalAdjust audio ds).getD i 0 ≤ ds.getD i 0 ∧
          min (ds.getD i 0) floorDur ≤ (finalAdjust audio ds).getD i 0) ∧
        min (lastD ds) floorDur ≤ lastD (finalAdjust audio ds)) ∧
    (¬ ds.sum < audio → ¬ (audio + 1 / 1000 < ds.sum ∧ 1 < ds.length) →
      finalAdjust audio ds = ds) := by
  refine ⟨fun hlt => ?_, fun hp hl => ?_, fun h1 h2 => finalAdjust_noop h1 h2⟩
  · rw [finalAdjust_short hlt]
    exact ⟨rfl, by rw [sum_setLast_add _ ds hne]; ring⟩
  · have h1 : ¬ ds.sum < audio := by linarith
    have hex : (0 : ℚ) < ds.sum - audio := by linarith
    rw [finalAdjust_over h1 hp hl]
    set adjT := (((ds.take (ds.length - 1)).filter (fun d => floorDur < d)).map
        (fun d => d - floorDur)).sum with hadjT
    by_cases hadj : 0 < adjT
    · rw [if_pos hadj]
      set ds2 := trimAux adjT (ds.sum - audio) (ds.length - 1) 0 ds with hds2
      have hlen2 : ds2.length = ds.length := length_trimAux _ _ _ _ _
      have hne2 : ds2 ≠ [] := by
        intro h
        rw [h] at hlen2
        simp at hlen2
        omega
      have hbounds := trimAux_getD_bounds adjT (ds.sum - audio) hadj hex
        (ds.length - 1) 0 ds
      have hlast2 : lastD ds2 = lastD ds := by
        unfold lastD
        rw [hlen2]
        exact trimAux_getD_of_lastIdx_le adjT (ds.sum - audio) (ds.length - 1) 0 ds
          (ds.length - 1) (by omega)
      split
      · constructor
        · intro i hi
          rw [show (setLast ds2 (max floorDur (lastD ds2 - (ds2.sum - audio)))).getD i 0
              = ds2.getD i 0 from getD_setLast_of_lt (by omega)]
          exact ⟨(hbounds i).1, (hbounds i).2⟩
        · rw [lastD_setLast hne2]
          exact le_trans (min_le_right _ _) (le_max_left _ _)
      · refine ⟨fun i hi => ⟨(hbounds i).1, (hbounds i).2⟩, ?_⟩
        rw [hlast2]
        exact min_le_left _ _
    · rw [if_neg hadj]
      exact ⟨fun i hi => ⟨le_rfl, min_le_left _ _⟩, min_le_left _ _⟩

/-- Witness for the amended C7 at `audio = 2`, durations `[3, 1]` (total 4,
overshoot branch active). -/
theorem final_adjust_amended_witness :
    ([3, 1] : List ℚ) ≠ [] ∧
      ((([3, 1] : List ℚ).sum < 2 →
        finalAdjust 2 [3, 1] = setLast [3, 1] (lastD [3, 1] + (2 - ([3, 1] : List ℚ).sum)) ∧
          (finalAdjust 2 [3, 1]).sum = 2) ∧
      ((2 : ℚ) + 1 / 1000 < ([3, 1] : List ℚ).sum → 1 < ([3, 1] : List ℚ).length →
        (∀ i, i < ([3, 1] : List ℚ).length - 1 →
          (finalAdjust 2 [3, 1]).getD i 0 ≤ ([3, 1] : List ℚ).getD i 0 ∧
            min (([3, 1] : List ℚ).getD i 0) floorDur ≤ (finalAdjust 2 [3, 1]).getD i 0) ∧
          min (lastD [3, 1]) floorDur ≤ lastD (finalAdjust 2 [3, 1])) ∧
      (¬ ([3, 1] : List ℚ).sum < 2 → ¬ ((2 : ℚ) + 1 / 1000 < ([3, 1] : List ℚ).sum ∧
          1 < ([3, 1] : List ℚ).length) →
        finalAdjust 2 [3, 1] = [3, 1])) :=
  ⟨by decide, final_adjust_amended 2 [3, 1] (by decide)⟩

/-! ## Floor preservation through every pass -/

theorem derivePT_floor : ∀ (segs : List (ℚ × ℚ)) (n : ℕ) (acc : ℚ),
    ∀ p ∈ derivePT segs n acc, floorDur ≤ p.1 := by
  intro segs n
  induction n generalizing segs with
  | zero => intro acc p hp; cases segs <;> simp [derivePT] at hp
  | succ k ih =>
    intro acc p hp
    cases segs with
    | nil =>
      rcases List.mem_cons.1 hp with rfl | hmem
      · norm_num [floorDur]
      · exact ih [] (acc + 1) p hmem
    | cons s rest =>
      obtain ⟨b, e⟩ := s
      rcases List.mem_cons.1 hp with rfl | hmem
      · exact le_max_left _ _
      · exact ih rest _ p hmem

theorem corrStep_floor (as : List ℚ) (sd : List ℚ × List ℚ) (j : ℕ)
    (h : ∀ d ∈ sd.2, floorDur ≤ d) :
    ∀ d ∈ (corrStep as sd j).2, floorDur ≤ d := by
  simp only [corrStep]
  split
  · intro d hd
    rcases List.mem_or_eq_of_mem_set hd with hmem | rfl
    · exact h d hmem
    · exact le_max_left _ _
  · exact h

theorem correctedDurations_floor (ds as : List ℚ) (h : ∀ d ∈ ds, floorDur ≤ d) :
    ∀ d ∈ correctedDurations ds as, floorDur ≤ d := by
  unfold correctedDurations correctionPass
  exact foldl_preserve (P := fun sd : List ℚ × List ℚ => ∀ d ∈ sd.2, floorDur ≤ d)
    (fun sd j hsd => corrStep_floor as sd j hsd) _ (videoStarts ds, ds) h

theorem trimAux_floor (adjT excess : ℚ) (lastIdx : ℕ) :
    ∀ (i0 : ℕ) (ds : List ℚ), (∀ d ∈ ds, floorDur ≤ d) →
      ∀ x ∈ trimAux adjT excess lastIdx i0 ds, floorDur ≤ x
  | _, [], _ => by simp [trimAux]
  | i0, d :: t, h => by
    intro x hx
    rcases List.mem_cons.1 hx with rfl | hmem
    · split
      · exact le_max_left _ _
      · exact h d (List.mem_cons_self d t)
    · exact trimAux_floor adjT excess lastIdx (i0 + 1) t
        (fun u hu => h u (List.mem_cons_of_mem d hu)) x hmem

theorem finalAdjust_nil (audio : ℚ) : finalAdjust audio [] = [] := by
  simp only [finalAdjust]
  split
  · rfl
  · split
    · split
      · split
        · rfl
        · rfl
      · rfl
    · rfl

theorem finalAdjust_floor (audio : ℚ) (ds : List ℚ) (h : ∀ d ∈ ds, floorDur ≤ d) :
    ∀ d ∈ finalAdjust audio ds, floorDur ≤ d := by
  rcases eq_or_ne ds [] with rfl | hne
  · intro d hd
    rw [finalAdjust_nil] at hd
    exact absurd hd (List.not_mem_nil d)
  · simp only [finalAdjust]
    split
    case isTrue hlt =>
      intro d hd
      rcases List.mem_or_eq_of_mem_set hd with hmem | rfl
      · exact h d hmem
      · have := h (lastD ds) (lastD_mem hne)
        linarith
    case isFalse hge =>
      split
      case isTrue hover =>
        split
        case isTrue hadj =>
          have htrim := trimAux_floor
            ((((ds.take (ds.length - 1)).filter (fun d => floorDur < d)).map
              (fun d => d - floorDur)).sum) (ds.sum - audio) (ds.length - 1) 0 ds h
          split
          case isTrue hstill =>
            intro d hd
            rcases List.mem_or_eq_of_mem_set hd with hmem | rfl
            · exact htrim d hmem
            · exact le_max_left _ _
          case isFalse hstill => exact htrim
        case isFalse hadj => exact h
      case isFalse hover => exact h

theorem finalSafety_floor (audio : ℚ) (ds : List ℚ) (h : ∀ d ∈ ds, floorDur ≤ d) :
    ∀ d ∈ finalSafety audio ds, floorDur ≤ d := by
  simp only [finalSafety]
  split
  case isTrue hc =>
    have hne : ds ≠ [] := List.length_pos.1 hc.2
    intro d hd
    rcases List.mem_or_eq_of_mem_set hd with hmem | rfl
    · exact h d hmem
    · have := h (lastD ds) (lastD_mem hne)
      have := hc.1
      linarith
  case isFalse hc => exact h

/-- Every duration produced by the whole pipeline respects the 0.05 s floor:
each pass either leaves a value, writes a `max` with the floor, or adds a
positive amount to a value already at the floor. -/
theorem pipeline_floor (audio : ℚ) (segs : List (ℚ × ℚ)) (n : ℕ) :
    ∀ d ∈ pipelineDurations audio segs n, floorDur ≤ d := by
  have h0 : ∀ d ∈ (pageTimings segs n).map Prod.fst, floorDur ≤ d := by
    intro d hd
    rcases List.mem_map.1 hd with ⟨p, hp, rfl⟩
    exact derivePT_floor segs n 0 p hp
  exact finalSafety_floor audio _
    (finalAdjust_floor audio _ (correctedDurations_floor _ _ h0))

/-! ## C8: duration floor invariant -/

/-- C8.  Every page duration in the final pipeline output is at least the
0.05 s floor, hence strictly positive: the aligner-derived durations start at
`max(0.05, ·)` (or the 1.0 s fallback), the correction pass only writes
`max(0.05, ·)` values, the proportional trim and the final-page shrink clamp
at `max(0.05, ·)`, and the shortfall/safety passes only add positive time to
the last page. -/
theorem floor_invariant (audio : ℚ) (segs : List (ℚ × ℚ)) (n : ℕ) :
    ∀ d ∈ pipelineDurations audio segs n, floorDur ≤ d ∧ 0 < d := by
  intro d hd
  have h := pipeline_floor audio segs n d hd
  refine ⟨h, lt_of_lt_of_le (by norm_num [floorDur]) h⟩

/-- Witness for C8: one page, segment `(0, 1)`, audio 2 s; the produced
duration 2 is at least the floor and positive. -/
theorem floor_invariant_witness :
    (2 : ℚ) ∈ pipelineDurations 2 [(0, 1)] 1 ∧ (floorDur ≤ (2 : ℚ) ∧ (0 : ℚ) < 2) :=
  ⟨by decide, floor_invariant 2 [(0, 1)] 1 2 (by decide)⟩

/-! ## C9: no input validation -/

/-- C9 counterexample: `create_trivia_video` performs no validation of its
inputs.  For a non-positive audio duration (−1 s) the pipeline does not
reject the request: it still returns a complete two-page timeline (every
page clamped toward the floor), rather than raising any InputError. -/
theorem no_validation_cex :
    (-1 : ℚ) ≤ 0 ∧
      pipelineDurations (-1) [(0, 1), (1, 2)] 2 = [floorDur, floorDur] := by
  decide

/-- C9 amended: the code contains no input-validation layer.  A non-positive
`audioDuration` is not rejected — the pipeline always yields a timeline with
exactly one duration per page (and every duration at least the 0.05 s floor),
so no error propagates to the caller.  (A non-string narration would fail
only incidentally, at the initial `replace`/`strip` call.) -/
theorem no_validation_amended (audio : ℚ) (_haudio : audio ≤ 0)
    (segs : List (ℚ × ℚ)) (n : ℕ) :
    (pipelineDurations audio segs n).length = n ∧
      ∀ d ∈ pipelineDurations audio segs n, floorDur ≤ d := by
  exact ⟨length_pipelineDurations audio segs n, pipeline_floor audio segs n⟩

/-- Witness for the amended C9 at audio −1 s, two segments, two pages. -/
theorem no_validation_amended_witness :
    (-1 : ℚ) ≤ 0 ∧
      ((pipelineDurations (-1) [(0, 1), (1, 2)] 2).length = 2 ∧
        ∀ d ∈ pipelineDurations (-1) [(0, 1), (1, 2)] 2, floorDur ≤ d) :=
  ⟨by decide, no_validation_amended (-1) (by decide) [(0, 1), (1, 2)] 2⟩

end Trivia
